import Mathlib

/-!
Verification development for the L3 order-book estimator.

The Go sources are shallowly embedded: `shopspring/decimal` quantities become
exact rationals (`ℚ`; the library's arithmetic on the quantities used here —
add, sub, compare, halving — is exact), Go slices become `List`s, Go maps
become association lists whose list order stands for the map's iteration
order, and wall-clock timestamps become `Int` parameters supplied by the
caller.  Loops that remove one element per iteration are written with an
explicit fuel argument equal to the slice length, which bounds the number of
iterations of the corresponding Go loop.
-/

namespace L3

/-- OrderInfo from queue_management.go: one synthetic order.  `age` and the
wall-clock bookkeeping are dropped: no claim mentions them. -/
structure OrderInfo where
  id : Nat
  qty : ℚ
  timestamp : Int
  isPartial : Bool
deriving DecidableEq, Repr

/-- EnhancedOrderQueue from queue_management.go: FIFO list of orders, the
cached total quantity and the synthetic-id counter (`lastUpdate`, the mutex
and the price-level string play no part in any claim). -/
structure EnhancedOrderQueue where
  orders : List OrderInfo
  totalQty : ℚ
  nextOrderID : Nat
deriving DecidableEq, Repr

/-- NewEnhancedOrderQueue: empty queue, zero total, ids start at 1. -/
def newEnhancedOrderQueue : EnhancedOrderQueue :=
  { orders := [], totalQty := 0, nextOrderID := 1 }

/-- Sum of the `qty` fields of a list of orders. -/
def sumQty (l : List OrderInfo) : ℚ :=
  (l.map OrderInfo.qty).sum

/-- AddOrder: append a fresh order with the next synthetic id and bump the
cached total. -/
def addOrder (now : Int) (qty : ℚ) (q : EnhancedOrderQueue) : EnhancedOrderQueue :=
  { orders := q.orders ++ [{ id := q.nextOrderID, qty := qty, timestamp := now, isPartial := false }]
    totalQty := q.totalQty + qty
    nextOrderID := q.nextOrderID + 1 }

/-- Strategy 1 of RemoveQty: the Go loop scans indices from the back and
removes the first order whose qty equals the amount.  Scanning backwards is
the same as preferring a match in the tail; on success the new list and the
removed order's qty are returned. -/
def tryExactMatch (d : ℚ) : List OrderInfo → Option (List OrderInfo × ℚ)
  | [] => none
  | o :: rest =>
    match tryExactMatch d rest with
    | some (rest2, removed) => some (o :: rest2, removed)
    | none => if o.qty = d then some (rest, o.qty) else none

/-- removeFIFO: consume whole orders from the front while the remaining
amount is positive; an order larger than the remainder is reduced in place
and marked partial.  Returns the new order list and the new cached total
(the Go code mutates `eq.orders` and `eq.totalQty` in lock-step). -/
def removeFIFO (remaining total : ℚ) : List OrderInfo → List OrderInfo × ℚ
  | [] => ([], total)
  | o :: rest =>
    if remaining ≤ 0 then (o :: rest, total)
    else if o.qty ≤ remaining then
      removeFIFO (remaining - o.qty) (total - o.qty) rest
    else
      ({ o with qty := o.qty - remaining, isPartial := true } :: rest, total - remaining)

/-- getLargestOrderIndex: the Go loop keeps the current best index and qty and
replaces them only on a strictly greater qty, so the first occurrence of the
maximum wins.  The loop body over the indexed tail. -/
def largestStep (best : Nat × ℚ) (x : Nat × OrderInfo) : Nat × ℚ :=
  if best.2 < x.2.qty then (x.1, x.2.qty) else best

/-- getLargestOrderIndex from queue_management.go (`none` for the empty
queue, where Go returns -1). -/
def getLargestOrderIndex (l : List OrderInfo) : Option Nat :=
  match l with
  | [] => none
  | o :: rest => some ((List.foldl largestStep (0, o.qty) (List.enumFrom 1 rest)).1)

/-- getLargestOrderQty: qty at the largest index, zero for the empty queue. -/
def getLargestOrderQty (l : List OrderInfo) : ℚ :=
  match getLargestOrderIndex l with
  | none => 0
  | some i => ((l.get? i).map OrderInfo.qty).getD 0

/-- Loop body of removeFromLargestOrders, with fuel bounding the number of
iterations: every iteration either removes one order (so `l.length` many can
occur) or zeroes the remainder and stops. -/
def removeFromLargestGo : Nat → ℚ → ℚ → List OrderInfo → List OrderInfo × ℚ
  | 0, _, total, l => (l, total)
  | fuel + 1, remaining, total, l =>
    if remaining ≤ 0 then (l, total)
    else
      match getLargestOrderIndex l with
      | none => (l, total)
      | some i =>
        match l.get? i with
        | none => (l, total)
        | some o =>
          if o.qty ≤ remaining then
            removeFromLargestGo fuel (remaining - o.qty) (total - o.qty) (l.eraseIdx i)
          else
            (l.set i { o with qty := o.qty - remaining, isPartial := true }, total - remaining)

/-- removeFromLargestOrders from queue_management.go. -/
def removeFromLargestOrders (remaining total : ℚ) (l : List OrderInfo) : List OrderInfo × ℚ :=
  removeFromLargestGo l.length remaining total l

/-- RemoveQty from queue_management.go: no-op on a non-positive amount,
then the exact-match cancellation pass, then the largest-first strategy when
the amount exceeds half the largest order, FIFO otherwise. -/
def removeQty (d : ℚ) (q : EnhancedOrderQueue) : EnhancedOrderQueue :=
  if d ≤ 0 then q
  else
    match tryExactMatch d q.orders with
    | some (l, removed) => { q with orders := l, totalQty := q.totalQty - removed }
    | none =>
      if getLargestOrderQty q.orders / 2 < d then
        let r := removeFromLargestOrders d q.totalQty q.orders
        { q with orders := r.1, totalQty := r.2 }
      else
        let r := removeFIFO d q.totalQty q.orders
        { q with orders := r.1, totalQty := r.2 }

/-- OptimizeQueue: drop non-positive orders, recompute the cached total from
scratch, and re-sort by timestamp (Go uses an unstable sort.Slice; any sort
by `timestamp ≤` models it, ties being unspecified there). -/
def optimizeQueue (q : EnhancedOrderQueue) : EnhancedOrderQueue :=
  let filtered := q.orders.filter (fun o => decide (0 < o.qty))
  { q with
    orders := List.insertionSort (fun a b => a.timestamp ≤ b.timestamp) filtered
    totalQty := sumQty filtered }

/-- Clear: drop all orders and zero the cached total. -/
def clearQueue (q : EnhancedOrderQueue) : EnhancedOrderQueue :=
  { q with orders := [], totalQty := 0 }

/-- One queue operation, as enumerated by the spec's invariant sentence. -/
inductive QOp where
  | add (now : Int) (qty : ℚ)
  | remove (d : ℚ)
  | optimize
  | clear
deriving DecidableEq, Repr

/-- Apply one operation. -/
def applyOp (op : QOp) (q : EnhancedOrderQueue) : EnhancedOrderQueue :=
  match op with
  | .add now qty => addOrder now qty q
  | .remove d => removeQty d q
  | .optimize => optimizeQueue q
  | .clear => clearQueue q

/-- Apply a sequence of operations, front first. -/
def applyOps (ops : List QOp) (q : EnhancedOrderQueue) : EnhancedOrderQueue :=
  ops.foldl (fun acc op => applyOp op acc) q

/-- Cache invariant: the cached total equals the sum of the member orders. -/
def cacheInv (q : EnhancedOrderQueue) : Prop :=
  q.totalQty = sumQty q.orders

instance : DecidablePred cacheInv := fun q => inferInstanceAs (Decidable (_ = _))

/-- Positivity invariant: every member order has strictly positive qty. -/
def posInv (q : EnhancedOrderQueue) : Prop :=
  ∀ o ∈ q.orders, 0 < o.qty

instance : DecidablePred posInv := fun q => List.decidableBAll _ q.orders

/-! The largest-order selection, restated as a first-occurrence split.
`firstMaxSplitCons o rest` splits `o :: rest` around the order the Go loop
in getLargestOrderIndex selects: the head wins unless the best of the tail
is strictly greater, so the first occurrence of the maximum wins. -/

def firstMaxSplitCons (o : OrderInfo) : List OrderInfo → List OrderInfo × OrderInfo × List OrderInfo
  | [] => ([], o, [])
  | b :: rest =>
    let s := firstMaxSplitCons b rest
    if o.qty < s.2.1.qty then (o :: s.1, s.2.1, s.2.2) else ([], o, b :: rest)

/-- Whether an operation is an `add`, the added qty is positive. -/
def QOp.addPos : QOp → Prop
  | .add _ qty => 0 < qty
  | _ => True

instance : DecidablePred QOp.addPos := fun op => by
  cases op <;> simp only [QOp.addPos] <;> infer_instance

/-! Spec-side restatements of the two non-exact removal strategies, written
from the spec's own words, to be compared with the Go loops. -/

/-- FIFO strategy as the spec words it: from the front of the queue, consume
whole orders while their qty is at most the remaining diff; the first order
whose qty exceeds the remaining diff absorbs the remainder (its qty
decreases and it is marked partial) and the loop ends, as it also does once
the diff is exhausted. -/
def fifoSpec (d : ℚ) : List OrderInfo → List OrderInfo
  | [] => []
  | o :: rest =>
    if d ≤ 0 then o :: rest
    else if o.qty ≤ d then fifoSpec (d - o.qty) rest
    else { o with qty := o.qty - d, isPartial := true } :: rest

/-- Largest-first strategy as the spec words it: find the largest order
(first occurrence wins on ties); if its qty exceeds the diff, subtract and
mark it partial; otherwise remove it entirely, subtract its qty from the
diff, and repeat on the new largest until the diff reaches zero or the queue
empties.  The fuel bounds the repetitions by the queue length. -/
def largestSpecGo : Nat → ℚ → List OrderInfo → List OrderInfo
  | 0, _, l => l
  | fuel + 1, d, l =>
    if d ≤ 0 then l
    else
      match l with
      | [] => []
      | o :: rest =>
        let s := firstMaxSplitCons o rest
        if d < s.2.1.qty then
          s.1 ++ { s.2.1 with qty := s.2.1.qty - d, isPartial := true } :: s.2.2
        else largestSpecGo fuel (d - s.2.1.qty) (s.1 ++ s.2.2)

/-- Largest-first strategy at full fuel. -/
def largestSpec (d : ℚ) (l : List OrderInfo) : List OrderInfo :=
  largestSpecGo l.length d l

/-- Sample queue with orders of qty 2, 10 and 3, as in the spec's scenario 4. -/
def sampleQueue4 : EnhancedOrderQueue :=
  { orders := [{ id := 1, qty := 2, timestamp := 0, isPartial := false },
      { id := 2, qty := 10, timestamp := 1, isPartial := false },
      { id := 3, qty := 3, timestamp := 2, isPartial := false }],
    totalQty := 15, nextOrderID := 4 }

/-- Sample queue with orders of qty 5 and 3, as in the spec's scenario 3. -/
def sampleQueue3 : EnhancedOrderQueue :=
  { orders := [{ id := 1, qty := 5, timestamp := 0, isPartial := false },
      { id := 2, qty := 3, timestamp := 1, isPartial := false }],
    totalQty := 8, nextOrderID := 3 }

/-! Book level, from main.go.  A legacy OrderQueue is its slice of order
sizes; the two sides are association lists from price strings to queues,
the list order standing for the Go map's iteration order.  Decimal parsing
of feed strings is an external collaborator (shopspring/decimal), so it is
a parameter `parse`; a `none` result stands for a parse error. -/

/-- Loop body of largestOrderIndex in main.go (strictly-greater replaces, so
the first occurrence of the maximum wins). -/
def oqLargestStep (best : Nat × ℚ) (x : Nat × ℚ) : Nat × ℚ :=
  if best.2 < x.2 then (x.1, x.2) else best

/-- largestOrderIndex from main.go (`none` for the empty queue). -/
def largestOrderIndex (l : List ℚ) : Option Nat :=
  match l with
  | [] => none
  | o :: rest => some ((List.foldl oqLargestStep (0, o) (List.enumFrom 1 rest)).1)

/-- Backward exact-match scan of updateQueue in main.go: remove the first
order, scanning from the back, whose size equals the difference. -/
def oqTryExact (d : ℚ) : List ℚ → Option (List ℚ)
  | [] => none
  | o :: rest =>
    match oqTryExact d rest with
    | some rest2 => some (o :: rest2)
    | none => if o = d then some rest else none

/-- Per-queue part of updateQueue from main.go: grow appends the difference
at the back; shrink first tries an exact cancellation match from the back,
then reduces (or removes) the largest order once. -/
def updateQueueOrders (newQty : ℚ) (orders : List ℚ) : List ℚ :=
  let oldSum := orders.sum
  if oldSum < newQty then orders ++ [newQty - oldSum]
  else if newQty < oldSum then
    let diff := oldSum - newQty
    match oqTryExact diff orders with
    | some l => l
    | none =>
      match largestOrderIndex orders with
      | none => orders
      | some i =>
        match orders.get? i with
        | none => orders
        | some o => if diff < o then orders.set i (o - diff) else orders.eraseIdx i
  else orders

/-- Go map indexing over the association-list model: the value stored at an
exactly equal key string. -/
def lookupKey {β : Type} (k : String) : List (String × β) → Option β
  | [] => none
  | (k2, v) :: rest => if k2 = k then some v else lookupKey k rest

/-- Go in-place update of the queue stored at a key: every entry whose key
equals `price` (with unique keys, the one entry) has `f` applied to its
value. -/
def mapAtKey {β : Type} (f : β → β) (price : String) : List (String × β) → List (String × β)
  | [] => []
  | (k, v) :: rest => (if k = price then (k, f v) else (k, v)) :: mapAtKey f price rest

/-- updateQueue from main.go at the side-map level: a missing price creates
a fresh single-order queue, an existing one is updated in place. -/
def updateQueue (side : List (String × List ℚ)) (price : String) (newQty : ℚ) :
    List (String × List ℚ) :=
  if (lookupKey price side).isSome then
    mapAtKey (updateQueueOrders newQty) price side
  else side ++ [(price, [newQty])]

/-- Per-queue part of updateEnhancedQueue from main.go: compare the new
aggregate against the cached total and add or remove the difference. -/
def updateEnhancedOne (now : Int) (newQty : ℚ) (queue : EnhancedOrderQueue) :
    EnhancedOrderQueue :=
  let oldSum := queue.totalQty
  if oldSum < newQty then addOrder now (newQty - oldSum) queue
  else if newQty < oldSum then removeQty (oldSum - newQty) queue
  else queue

/-- updateEnhancedQueue from main.go at the side-map level.  The wall-clock
gated optimizeAllQueues sweep at its end is modeled separately through
`optimizeQueue` (claims C1 and C6 cover it). -/
def updateEnhancedQueue (now : Int) (side : List (String × EnhancedOrderQueue))
    (price : String) (newQty : ℚ) : List (String × EnhancedOrderQueue) :=
  if (lookupKey price side).isSome then
    mapAtKey (updateEnhancedOne now newQty) price side
  else side ++ [(price, addOrder now newQty newEnhancedOrderQueue)]

/-- Go map deletion. -/
def delKey {β : Type} (side : List (String × β)) (k : String) : List (String × β) :=
  side.filter (fun pq => pq.1 != k)

/-- One (price, qty) entry of a delta applied to a side's legacy and
enhanced maps: entries shorter than two fields are skipped, unparseable qty
strings are skipped, zero removes the price level from both maps, anything
else updates both queues. -/
def applySideEntry (parse : String → Option ℚ) (now : Int)
    (st : List (String × List ℚ) × List (String × EnhancedOrderQueue)) (entry : List String) :
    List (String × List ℚ) × List (String × EnhancedOrderQueue) :=
  match entry with
  | price :: qtyStr :: _ =>
    match parse qtyStr with
    | none => st
    | some newQty =>
      if newQty = 0 then (delKey st.1 price, delKey st.2 price)
      else (updateQueue st.1 price newQty, updateEnhancedQueue now st.2 price newQty)
  | _ => st

/-- Whether the bid-pruning loop of applyDelta drops an existing level: both
the level's price and the first price of the update parse, and the level
lies strictly above it (a parse failure on either side keeps the level). -/
def pruneCondBid (parse : String → Option ℚ) (firstStr p : String) : Bool :=
  match parse p, parse firstStr with
  | some pv, some b0 => decide (b0 < pv)
  | _, _ => false

/-- Ask-side analogue: drop levels strictly below the first ask price. -/
def pruneCondAsk (parse : String → Option ℚ) (firstStr p : String) : Bool :=
  match parse p, parse firstStr with
  | some pv, some a0 => decide (pv < a0)
  | _, _ => false

/-- Bid pruning of applyDelta: collect-then-delete over the map is dropping
every level whose prune condition holds. -/
def pruneBids (parse : String → Option ℚ) (bids : List (String × List ℚ))
    (firstStr : String) : List (String × List ℚ) :=
  bids.filter (fun pq => ! pruneCondBid parse firstStr pq.1)

/-- Ask pruning of applyDelta. -/
def pruneAsks (parse : String → Option ℚ) (asks : List (String × List ℚ))
    (firstStr : String) : List (String × List ℚ) :=
  asks.filter (fun pq => ! pruneCondAsk parse firstStr pq.1)

/-- Side maps of L3OrderBook that applyDelta touches (useEnhancedMode is on
by default and stays on). -/
structure BookSides where
  bids : List (String × List ℚ)
  asks : List (String × List ℚ)
  enhancedBids : List (String × EnhancedOrderQueue)
  enhancedAsks : List (String × EnhancedOrderQueue)
deriving DecidableEq, Repr

/-- Delta update shape from the feed (binanceWSUpdate's B and A fields). -/
structure WSUpdate where
  B : List (List String)
  A : List (List String)
deriving DecidableEq, Repr

/-- applyDelta from main.go: apply all bid entries, prune bids above the
update's first bid price, then the same for asks below the first ask price.
When a side of the update is empty, or its first entry is empty, the Go
loop over a nonempty existing side would dereference a missing element and
panic; the model keeps the side unchanged there (no claim covers that
region, and with no existing levels the Go loop body never runs). -/
def applyDelta (parse : String → Option ℚ) (now : Int) (ob : BookSides) (u : WSUpdate) :
    BookSides :=
  let bidSt := u.B.foldl (applySideEntry parse now) (ob.bids, ob.enhancedBids)
  let bids2 :=
    match u.B.head? with
    | none => bidSt.1
    | some fb =>
      match fb.head? with
      | none => bidSt.1
      | some s0 => pruneBids parse bidSt.1 s0
  let askSt := u.A.foldl (applySideEntry parse now) (ob.asks, ob.enhancedAsks)
  let asks2 :=
    match u.A.head? with
    | none => askSt.1
    | some fa =>
      match fa.head? with
      | none => askSt.1
      | some s0 => pruneAsks parse askSt.1 s0
  { bids := bids2, asks := asks2, enhancedBids := bidSt.2, enhancedAsks := askSt.2 }

/-- Single-order queue holding qty 5, used by the C2 records. -/
def sampleQueue5 : EnhancedOrderQueue :=
  { orders := [{ id := 1, qty := 5, timestamp := 0, isPartial := false }],
    totalQty := 5, nextOrderID := 2 }

/-! Mini-batch K-means from the clustering source file.  float64 arithmetic
is modeled exactly over ℚ: the claims settled here (label counts, label
ranges, ordering of the remapped centroids, alignment, determinism) are
structural and hold for any exact arithmetic.  Go's math/rand is an external
collaborator: it is an ambient family of deterministic streams
`r : seed → draw index → raw value`, and each Intn(n) call consumes the next
draw of the stream seeded at the fixed constant, reduced mod n (Intn's
contract: a value in [0, n) for n > 0). -/

structure MiniBatchKMeans where
  numClusters : Nat
  batchSize : Nat
  maxIter : Nat
  centroids : List ℚ
deriving DecidableEq, Repr

/-- NewMiniBatchKMeans: fresh instance with no centroids. -/
def newMiniBatchKMeans (numClusters batchSize maxIter : Nat) : MiniBatchKMeans :=
  { numClusters := numClusters, batchSize := batchSize, maxIter := maxIter, centroids := [] }

/-- euclideanDistance on 1-D points: absolute difference of the qty fields. -/
def euclideanDistance (a b : ℚ) : ℚ := |a - b|

/-- normalize: rescale to [0, 1]; a zero range (all points equal) returns the
points unchanged.  The Go loop seeds min/max with ±MaxFloat sentinels and
scans every point, which on a nonempty list is a fold from the first
point. -/
def normalize (points : List ℚ) : List ℚ :=
  match points with
  | [] => []
  | p :: rest =>
    let minQty := rest.foldl min p
    let maxQty := rest.foldl max p
    if maxQty - minQty = 0 then p :: rest
    else (p :: rest).map (fun x => (x - minQty) / (maxQty - minQty))

/-- initializeCentroids: sort the points ascending and pick k evenly spaced
ones, step = len / k (at least 1), clamping the index to the last point.
Empty input leaves the centroids unchanged, as in Go.  The Go make() already
produces length k, so its fill-remaining loop never runs; for k = 0 Go's
len/k would panic, the model's step simply becomes 1 and the result is
empty. -/
def initializeCentroids (k : Nat) (points : List ℚ) (old : List ℚ) : List ℚ :=
  match points with
  | [] => old
  | _ =>
    let sorted := List.insertionSort (fun a b : ℚ => a ≤ b) points
    let step0 := sorted.length / k
    let step := if step0 = 0 then 1 else step0
    (List.range k).map (fun i =>
      let idx := i * step
      sorted.getD (if sorted.length ≤ idx then sorted.length - 1 else idx) 0)

/-- Loop of closestCentroid after the first comparison: strictly smaller
distance replaces the best, so the first index attaining the minimum wins. -/
def closestAux (p : ℚ) : List ℚ → Nat → Nat → ℚ → Nat
  | [], _, bi, _ => bi
  | c :: rest, i, bi, bd =>
    if euclideanDistance p c < bd then closestAux p rest (i + 1) i (euclideanDistance p c)
    else closestAux p rest (i + 1) bi bd

/-- closestCentroid: the Go loop seeds the best distance with +Inf, so the
first centroid always becomes the initial best; an empty centroid list
returns index 0 as Go does. -/
def closestCentroid (cs : List ℚ) (p : ℚ) : Nat :=
  match cs with
  | [] => 0
  | c :: rest => closestAux p rest 1 0 (euclideanDistance p c)

/-- Per-batch accumulation: counts and sums per closest centroid, starting
from the zero arrays make() provides. -/
def accumBatch (cs : List ℚ) (points : List ℚ) (idxs : List Nat) (k : Nat) :
    List Nat × List ℚ :=
  idxs.foldl
    (fun acc idx =>
      let p := points.getD idx 0
      let closest := closestCentroid cs p
      (acc.1.set closest (acc.1.getD closest 0 + 1),
        acc.2.set closest (acc.2.getD closest 0 + p)))
    (List.replicate k 0, List.replicate k 0)

/-- Centroid update with learning rate 1/count; clusters with an empty batch
count are untouched. -/
def updateCentroids (cs : List ℚ) (cnts : List Nat) (sums : List ℚ) : List ℚ :=
  cs.mapIdx (fun i c =>
    let cnt := cnts.getD i 0
    if 0 < cnt then
      let lr : ℚ := 1 / (cnt : ℚ)
      (1 - lr) * c + lr * (sums.getD i 0 / (cnt : ℚ))
    else c)

/-- The maxIter mini-batch iterations, threading the centroids and the
position in the seed-42 random stream (each Intn call consumes one draw). -/
def fitIterations (r42 : Nat → Nat) (points : List ℚ) (k batchSize : Nat) :
    Nat → List ℚ × Nat → List ℚ × Nat
  | 0, st => st
  | iter + 1, (cs, pos) =>
    let bs := if points.length < batchSize then points.length else batchSize
    let idxs := (List.range bs).map (fun j => r42 (pos + j) % points.length)
    let acc := accumBatch cs points idxs k
    fitIterations r42 points k batchSize iter (updateCentroids cs acc.1 acc.2, pos + bs)

/-- Centroids at the end of Fit's iteration phase (initialization happens
lazily when the stored centroids are absent or their count changed). -/
def fitCentroids (r : Nat → Nat → Nat) (km : MiniBatchKMeans) (rawPoints : List ℚ) :
    List ℚ :=
  let points := normalize rawPoints
  let cs0 :=
    if km.centroids.length = 0 ∨ km.centroids.length ≠ km.numClusters then
      initializeCentroids km.numClusters points km.centroids
    else km.centroids
  (fitIterations (r 42) points km.numClusters km.batchSize km.maxIter (cs0, 0)).1

/-- First position of a value in a list: the label map built from the stored
centroid indices (a permutation, so first and last write coincide). -/
def firstPos (a : Nat) : List Nat → Option Nat
  | [] => none
  | b :: l => if b = a then some 0 else (firstPos a l).map (· + 1)

/-- The stabilization permutation: centroid indices sorted by centroid
value ascending (Go uses an unstable sort.Slice; tie order is unspecified
there). -/
def fitSortedIdx (k : Nat) (cs : List ℚ) : List Nat :=
  List.insertionSort (fun i j => cs.getD i 0 ≤ cs.getD j 0) (List.range k)

/-- Fit on the extracted point list: empty input returns no labels and
leaves the state alone; otherwise normalize, lazily initialize, iterate,
label every point with its nearest centroid and remap labels through the
sorted-centroid permutation (a label missing from the map is kept, as in
Go's two-valued map lookup). -/
def fitPoints (r : Nat → Nat → Nat) (km : MiniBatchKMeans) (rawPoints : List ℚ) :
    List Nat × MiniBatchKMeans :=
  match rawPoints with
  | [] => ([], km)
  | _ =>
    let points := normalize rawPoints
    let cs1 := fitCentroids r km rawPoints
    let sortedIdx := fitSortedIdx km.numClusters cs1
    let labels := (points.map (closestCentroid cs1)).map
      (fun l => (firstPos l sortedIdx).getD l)
    (labels, { km with centroids := cs1 })

/-- Point extraction of Fit and ClusterOrderBook: every strictly positive
qty of every queue, flattened in the traversal order of the side map. -/
def extractPoints : List (String × List ℚ) → List ℚ
  | [] => []
  | (_, qs) :: rest => qs.filter (fun q => decide (0 < q)) ++ extractPoints rest

/-- Fit on a book side traversed in the order `entries` lists it. -/
def fitBook (r : Nat → Nat → Nat) (km : MiniBatchKMeans)
    (entries : List (String × List ℚ)) : List Nat × MiniBatchKMeans :=
  fitPoints r km (extractPoints entries)

/-- Label consumption of ClusterOrderBook's output loop: walk a queue's
qtys, pair each positive one with the next unconsumed label (cluster 0 once
the labels run out, matching the bounds-checked labelIdx), and return the
leftover labels. -/
def takeLabels : List Nat → List ℚ → List (ℚ × Nat) × List Nat
  | labels, [] => ([], labels)
  | labels, q :: rest =>
    if 0 < q then
      match labels with
      | [] =>
        let acc := takeLabels [] rest
        ((q, 0) :: acc.1, acc.2)
      | l :: ls =>
        let acc := takeLabels ls rest
        ((q, l) :: acc.1, acc.2)
    else takeLabels labels rest

/-- Output assembly of ClusterOrderBook: traverse the side map, consume
labels sequentially, and keep only prices with a nonempty pair list. -/
def assignOut : List Nat → List (String × List ℚ) → List (String × List (ℚ × Nat))
  | _, [] => []
  | labels, (p, qs) :: rest =>
    let acc := takeLabels labels qs
    if acc.1.isEmpty then assignOut acc.2 rest
    else (p, acc.1) :: assignOut acc.2 rest

/-- Global-clusterer resolution of ClusterOrderBook: reuse the stored
instance unless it is absent or its cluster count changed, in which case a
fresh one with batch size 1024 and 1024 iterations is created. -/
def resolveKMeans (gkm : Option MiniBatchKMeans) (numClusters : Nat) : MiniBatchKMeans :=
  match gkm with
  | some km0 =>
    if km0.numClusters = numClusters then km0 else newMiniBatchKMeans numClusters 1024 1024
  | none => newMiniBatchKMeans numClusters 1024 1024

/-- ClusterOrderBook: fit over the side map traversed in `entriesFit` order,
then assemble the output traversing the same map in `entriesOut` order.
Go ranges over the one map twice, and map iteration order is not fixed
across the two loops, so the two traversal orders are separate parameters:
`entriesOut` is a permutation of `entriesFit`. -/
def clusterOrderBook (r : Nat → Nat → Nat) (gkm : Option MiniBatchKMeans)
    (numClusters : Nat) (entriesFit entriesOut : List (String × List ℚ)) :
    List (String × List (ℚ × Nat)) :=
  let km := resolveKMeans gkm numClusters
  let labels := (fitPoints r km (extractPoints entriesFit)).1
  assignOut labels entriesOut

/-- All-zeros ambient random stream, used by the concrete clustering
records (a legitimate instance of Intn's contract: 0 ∈ [0, n)). -/
def rZeroStream : Nat → Nat → Nat := fun _ _ => 0

/-- Positive qtys of one queue, in queue order (the spec's collection). -/
def posQtys (qs : List ℚ) : List ℚ :=
  qs.filter (fun q => decide (0 < q))

/-- Aligned output as the spec words it: for each price in traversal order,
its positive qtys paired with the labels at that queue's own offsets in the
flat collection order. -/
def alignedSpec : List Nat → List (String × List ℚ) → List (String × List (ℚ × Nat))
  | _, [] => []
  | labels, (p, qs) :: rest =>
    let here := (posQtys qs).zip (labels.take (posQtys qs).length)
    if here.isEmpty then alignedSpec (labels.drop (posQtys qs).length) rest
    else (p, here) :: alignedSpec (labels.drop (posQtys qs).length) rest

/-- Concrete decimal parser fragment used by the C5 record. -/
def parseEx (s : String) : Option ℚ :=
  if s = "99" then some 99
  else if s = "100" then some 100
  else if s = "101" then some 101
  else none

/-- Concrete book for the C5 record: bids at 100 and 101, asks at 99 and
101. -/
def obEx : BookSides :=
  { bids := [("100", [5]), ("101", [2])], asks := [("99", [1]), ("101", [3])],
    enhancedBids := [], enhancedAsks := [] }

/-- Concrete delta for the C5 record: one bid at 99, one ask at 101. -/
def uEx : WSUpdate :=
  { B := [["99", "1"]], A := [["101", "1"]] }

/-- Fresh two-cluster instance as ClusterOrderBook creates it. -/
def kmFresh2 : MiniBatchKMeans :=
  { numClusters := 2, batchSize := 1024, maxIter := 1024, centroids := [] }

/-- Fit-traversal order of the two-price book used by the C8 records. -/
def ceFit : List (String × List ℚ) := [("1", [1]), ("2", [100])]

/-- Output-traversal order of the same book: the two Go range loops over one
map may enumerate it differently, here in the reversed order. -/
def ceOut : List (String × List ℚ) := [("2", [100]), ("1", [1])]

/-- Ambient stream equal to the all-zeros one at seed 42 but different at
every other seed, for the C9 record. -/
def rOtherSeeds : Nat → Nat → Nat := fun s n => if s = 42 then 0 else n + 1

/-! Helper lemmas about `sumQty` and list surgery at an index. -/

theorem sumQty_nil : sumQty [] = 0 := rfl

theorem sumQty_cons (o : OrderInfo) (l : List OrderInfo) :
    sumQty (o :: l) = o.qty + sumQty l := by
  simp [sumQty]

theorem sumQty_append (l₁ l₂ : List OrderInfo) :
    sumQty (l₁ ++ l₂) = sumQty l₁ + sumQty l₂ := by
  simp [sumQty]

theorem sumQty_nonneg {l : List OrderInfo} (h : ∀ o ∈ l, 0 < o.qty) :
    0 ≤ sumQty l := by
  induction l with
  | nil => simp [sumQty]
  | cons o rest ih =>
    rw [sumQty_cons]
    have h1 := h o (by simp)
    have h2 := ih (fun x hx => h x (by simp [hx]))
    linarith

theorem sumQty_eraseIdx :
    ∀ (l : List OrderInfo) (i : Nat) (o : OrderInfo), l.get? i = some o →
      sumQty (l.eraseIdx i) = sumQty l - o.qty
  | [], i, o, h => by simp [List.get?] at h
  | a :: l, 0, o, h => by
    rw [List.get?_cons_zero, Option.some.injEq] at h
    subst h
    simp [List.eraseIdx, sumQty_cons]
  | a :: l, i + 1, o, h => by
    rw [List.get?_cons_succ] at h
    rw [List.eraseIdx_cons_succ, sumQty_cons, sumQty_cons, sumQty_eraseIdx l i o h]
    ring

theorem sumQty_set :
    ∀ (l : List OrderInfo) (i : Nat) (o o' : OrderInfo), l.get? i = some o →
      sumQty (l.set i o') = sumQty l - o.qty + o'.qty
  | [], i, o, o', h => by simp [List.get?] at h
  | a :: l, 0, o, o', h => by
    rw [List.get?_cons_zero, Option.some.injEq] at h
    subst h
    rw [List.set_cons_zero, sumQty_cons, sumQty_cons]
    ring
  | a :: l, i + 1, o, o', h => by
    rw [List.get?_cons_succ] at h
    rw [List.set_cons_succ, sumQty_cons, sumQty_cons, sumQty_set l i o o' h]
    ring

/-! Lemmas about the exact-match cancellation pass. -/

theorem tryExactMatch_eq_none {d : ℚ} :
    ∀ {l : List OrderInfo}, tryExactMatch d l = none ↔ ∀ o ∈ l, o.qty ≠ d := by
  intro l
  induction l with
  | nil => simp [tryExactMatch]
  | cons o rest ih =>
    simp only [tryExactMatch]
    constructor
    · intro h x hx
      match hr : tryExactMatch d rest with
      | some (l2, r2) => rw [hr] at h; exact absurd h (by simp)
      | none =>
        rw [hr] at h
        rcases List.mem_cons.mp hx with rfl | hxr
        · intro hq; rw [if_pos hq] at h; exact absurd h (by simp)
        · exact (ih.mp hr) x hxr
    · intro h
      have hrest : tryExactMatch d rest = none := ih.mpr (fun x hx => h x (by simp [hx]))
      rw [hrest, if_neg (h o (by simp))]

theorem tryExactMatch_eq_some {d : ℚ} :
    ∀ {l l' : List OrderInfo} {rem : ℚ}, tryExactMatch d l = some (l', rem) →
      rem = d ∧ ∃ pre m post, l = pre ++ m :: post ∧ m.qty = d ∧
        (∀ o ∈ post, o.qty ≠ d) ∧ l' = pre ++ post := by
  intro l
  induction l with
  | nil => intro l' rem h; simp [tryExactMatch] at h
  | cons o rest ih =>
    intro l' rem h
    simp only [tryExactMatch] at h
    match hr : tryExactMatch d rest with
    | some (l2, r2) =>
      rw [hr] at h
      simp only [Option.some.injEq, Prod.mk.injEq] at h
      obtain ⟨hl, hrem⟩ := h
      obtain ⟨hrd, pre, m, post, hsplit, hm, hpost, hl2⟩ := ih hr
      exact ⟨by rw [← hrem, hrd], o :: pre, m, post, by rw [hsplit]; rfl, hm, hpost,
        by rw [← hl, hl2]; rfl⟩
    | none =>
      rw [hr] at h
      by_cases hq : o.qty = d
      · rw [if_pos hq] at h
        simp only [Option.some.injEq, Prod.mk.injEq] at h
        obtain ⟨hl, hrem⟩ := h
        exact ⟨by rw [← hrem, hq], [], o, rest, by simp, hq,
          tryExactMatch_eq_none.mp hr, by simp [← hl]⟩
      · rw [if_neg hq] at h
        exact absurd h (by simp)

/-! Lemmas about the FIFO removal loop. -/

theorem removeFIFO_diff :
    ∀ (l : List OrderInfo) (r t : ℚ),
      (removeFIFO r t l).2 - sumQty (removeFIFO r t l).1 = t - sumQty l
  | [], r, t => by simp [removeFIFO]
  | o :: rest, r, t => by
    simp only [removeFIFO]
    by_cases h0 : r ≤ 0
    · rw [if_pos h0]
    · rw [if_neg h0]
      by_cases h1 : o.qty ≤ r
      · rw [if_pos h1]
        have := removeFIFO_diff rest (r - o.qty) (t - o.qty)
        rw [this, sumQty_cons]
        ring
      · rw [if_neg h1]
        simp only [sumQty_cons]
        ring

theorem removeFIFO_total :
    ∀ (l : List OrderInfo) (r t : ℚ), (∀ o ∈ l, 0 < o.qty) →
      0 ≤ r → r ≤ sumQty l → (removeFIFO r t l).2 = t - r
  | [], r, t, _, h0, h1 => by
    rw [sumQty_nil] at h1
    have : r = 0 := le_antisymm h1 h0
    simp [removeFIFO, this]
  | o :: rest, r, t, hpos, h0, h1 => by
    simp only [removeFIFO]
    by_cases hz : r ≤ 0
    · have : r = 0 := le_antisymm hz h0
      simp [if_pos hz, this]
    · rw [if_neg hz]
      by_cases h2 : o.qty ≤ r
      · rw [if_pos h2]
        have hrec := removeFIFO_total rest (r - o.qty) (t - o.qty)
          (fun x hx => hpos x (by simp [hx])) (by linarith)
          (by rw [sumQty_cons] at h1; linarith)
        rw [hrec]; ring
      · rw [if_neg h2]

theorem removeFIFO_pos :
    ∀ (l : List OrderInfo) (r t : ℚ), (∀ o ∈ l, 0 < o.qty) →
      ∀ x ∈ (removeFIFO r t l).1, 0 < x.qty
  | [], r, t, hpos => by simp [removeFIFO]
  | o :: rest, r, t, hpos => by
    simp only [removeFIFO]
    by_cases h0 : r ≤ 0
    · rw [if_pos h0]; exact hpos
    · rw [if_neg h0]
      by_cases h1 : o.qty ≤ r
      · rw [if_pos h1]
        exact removeFIFO_pos rest (r - o.qty) (t - o.qty)
          (fun x hx => hpos x (by simp [hx]))
      · rw [if_neg h1]
        intro x hx
        rcases List.mem_cons.mp hx with rfl | hxr
        · simp only
          have : 0 < r := lt_of_not_le h0
          have : ¬ o.qty ≤ r := h1
          linarith [lt_of_not_le this]
        · exact hpos x (by simp [hxr])

theorem firstMaxSplitCons_decomp :
    ∀ (rest : List OrderInfo) (o : OrderInfo),
      o :: rest = (firstMaxSplitCons o rest).1 ++
        (firstMaxSplitCons o rest).2.1 :: (firstMaxSplitCons o rest).2.2
  | [], o => rfl
  | b :: rest, o => by
    simp only [firstMaxSplitCons]
    by_cases hc : o.qty < (firstMaxSplitCons b rest).2.1.qty
    · rw [if_pos hc]
      simp only [List.cons_append]
      rw [← firstMaxSplitCons_decomp rest b]
    · rw [if_neg hc]
      rfl

/-- Loop-invariant bridge: the Go best-so-far fold over the indexed tail
lands on the first-occurrence maximum that `firstMaxSplitCons` names. -/
theorem largest_foldl_eq :
    ∀ (rest : List OrderInfo) (c : OrderInfo) (b : Nat) (q : ℚ) (i : Nat),
      List.foldl largestStep (b, q) (List.enumFrom i (c :: rest)) =
        (if q < (firstMaxSplitCons c rest).2.1.qty then
          (i + (firstMaxSplitCons c rest).1.length, (firstMaxSplitCons c rest).2.1.qty)
        else (b, q))
  | [], c, b, q, i => by
    simp only [List.enumFrom, List.foldl, firstMaxSplitCons, largestStep]
    by_cases hc : q < c.qty
    · simp [if_pos hc]
    · simp [if_neg hc]
  | c2 :: rest, c, b, q, i => by
    have hstep : List.foldl largestStep (b, q) (List.enumFrom i (c :: c2 :: rest)) =
        List.foldl largestStep (largestStep (b, q) (i, c)) (List.enumFrom (i + 1) (c2 :: rest)) := rfl
    rw [hstep, largest_foldl_eq rest c2 (largestStep (b, q) (i, c)).1
      (largestStep (b, q) (i, c)).2 (i + 1)]
    simp only [firstMaxSplitCons, largestStep]
    by_cases hc : q < c.qty
    · rw [if_pos hc]
      simp only
      by_cases hc2 : c.qty < (firstMaxSplitCons c2 rest).2.1.qty
      · rw [if_pos hc2, if_pos hc2, if_pos (lt_trans hc hc2)]
        simp only [List.length_cons]
        rw [Prod.mk.injEq]
        exact ⟨by omega, rfl⟩
      · rw [if_neg hc2, if_neg hc2, if_pos hc]
        simp
    · rw [if_neg hc]
      simp only
      by_cases hc2 : c.qty < (firstMaxSplitCons c2 rest).2.1.qty
      · rw [if_pos hc2]
        by_cases hc3 : q < (firstMaxSplitCons c2 rest).2.1.qty
        · rw [if_pos hc3, if_pos hc3]
          simp only [List.length_cons]
          rw [Prod.mk.injEq]
          exact ⟨by omega, rfl⟩
        · rw [if_neg hc3, if_neg hc3]
      · rw [if_neg hc2]
        have hc3 : ¬ q < (firstMaxSplitCons c2 rest).2.1.qty := by
          intro hlt
          exact hc (lt_of_lt_of_le hlt (le_of_not_lt hc2))
        rw [if_neg hc3, if_neg hc]

theorem getLargestOrderIndex_cons (o : OrderInfo) (rest : List OrderInfo) :
    getLargestOrderIndex (o :: rest) = some (firstMaxSplitCons o rest).1.length := by
  cases rest with
  | nil => rfl
  | cons c rest2 =>
    simp only [getLargestOrderIndex]
    rw [largest_foldl_eq rest2 c 0 o.qty 1]
    simp only [firstMaxSplitCons]
    by_cases hc : o.qty < (firstMaxSplitCons c rest2).2.1.qty
    · rw [if_pos hc, if_pos hc]
      simp only [List.length_cons, Option.some.injEq]
      omega
    · rw [if_neg hc, if_neg hc]
      rfl

theorem get?_append_length (pre post : List OrderInfo) (m : OrderInfo) :
    (pre ++ m :: post).get? pre.length = some m := by
  induction pre with
  | nil => rfl
  | cons a rest ih => simpa using ih

theorem eraseIdx_append_length (pre post : List OrderInfo) (m : OrderInfo) :
    (pre ++ m :: post).eraseIdx pre.length = pre ++ post := by
  induction pre with
  | nil => rfl
  | cons a rest ih => simpa [List.eraseIdx_cons_succ] using ih

theorem set_append_length (pre post : List OrderInfo) (m m' : OrderInfo) :
    (pre ++ m :: post).set pre.length m' = pre ++ m' :: post := by
  induction pre with
  | nil => rfl
  | cons a rest ih => simpa [List.set_cons_succ] using ih

/-! Lemmas about the largest-first removal loop. -/

theorem removeLargestGo_diff :
    ∀ (fuel : Nat) (r t : ℚ) (l : List OrderInfo),
      (removeFromLargestGo fuel r t l).2 - sumQty (removeFromLargestGo fuel r t l).1 =
        t - sumQty l
  | 0, r, t, l => by simp [removeFromLargestGo]
  | fuel + 1, r, t, l => by
    unfold removeFromLargestGo
    split
    · rfl
    · split
      · rfl
      · split
        · rfl
        · next o ho =>
          split
          · rw [removeLargestGo_diff fuel _ _ _, sumQty_eraseIdx l _ o ho]
            ring
          · simp only
            rw [sumQty_set l _ o _ ho]
            ring

/-- Step equation for the largest-first loop on a nonempty queue. -/
theorem removeLargestGo_step {r t : ℚ} {rest : List OrderInfo} {o : OrderInfo}
    (fuel : Nat) (hz : ¬ r ≤ 0) :
    removeFromLargestGo (fuel + 1) r t (o :: rest) =
      (let s := firstMaxSplitCons o rest
       if s.2.1.qty ≤ r then
        removeFromLargestGo fuel (r - s.2.1.qty) (t - s.2.1.qty) (s.1 ++ s.2.2)
      else
        (s.1 ++ { s.2.1 with qty := s.2.1.qty - r, isPartial := true } :: s.2.2, t - r)) := by
  have hidx := getLargestOrderIndex_cons o rest
  have hdec := firstMaxSplitCons_decomp rest o
  have hget : (o :: rest).get? (firstMaxSplitCons o rest).1.length =
      some (firstMaxSplitCons o rest).2.1 := by
    rw [hdec]; exact get?_append_length _ _ _
  conv_lhs => rw [removeFromLargestGo]
  rw [if_neg hz, hidx]
  simp only [hget]
  by_cases hle : (firstMaxSplitCons o rest).2.1.qty ≤ r
  · rw [if_pos hle, if_pos hle]
    rw [hdec, eraseIdx_append_length]
  · rw [if_neg hle, if_neg hle]
    rw [hdec, set_append_length]

theorem removeLargestGo_total :
    ∀ (fuel : Nat) (r t : ℚ) (l : List OrderInfo), l.length ≤ fuel →
      (∀ o ∈ l, 0 < o.qty) → 0 ≤ r → r ≤ sumQty l →
      (removeFromLargestGo fuel r t l).2 = t - r
  | 0, r, t, l, hlen, hpos, h0, h1 => by
    have : l = [] := List.eq_nil_of_length_eq_zero (Nat.le_zero.mp hlen)
    subst this
    rw [sumQty_nil] at h1
    have : r = 0 := le_antisymm h1 h0
    simp [removeFromLargestGo, this]
  | fuel + 1, r, t, l, hlen, hpos, h0, h1 => by
    by_cases hz : r ≤ 0
    · have : r = 0 := le_antisymm hz h0
      unfold removeFromLargestGo
      simp [this]
    · have hrpos : 0 < r := lt_of_not_le hz
      match l, hlen, hpos, h1 with
      | [], _, _, h1 => rw [sumQty_nil] at h1; exact absurd (le_antisymm h1 h0) (by linarith)
      | o :: rest, hlen, hpos, h1 =>
        have hdec := firstMaxSplitCons_decomp rest o
        set s := firstMaxSplitCons o rest with hs
        have hsum : sumQty (o :: rest) = sumQty s.1 + s.2.1.qty + sumQty s.2.2 := by
          rw [hdec, sumQty_append, sumQty_cons]; ring
        rw [removeLargestGo_step fuel hz]
        simp only [← hs]
        by_cases hle : s.2.1.qty ≤ r
        · have hlen2 : (s.1 ++ s.2.2).length ≤ fuel := by
            have := congrArg List.length hdec
            simp only [List.length_append, List.length_cons] at this hlen ⊢
            omega
          have hposrest : ∀ x ∈ s.1 ++ s.2.2, 0 < x.qty := by
            intro x hx
            refine hpos x ?_
            rw [hdec]
            rcases List.mem_append.mp hx with hp | hp
            · exact List.mem_append.mpr (Or.inl hp)
            · exact List.mem_append.mpr (Or.inr (by simp [hp]))
          have hsum2 : r - s.2.1.qty ≤ sumQty (s.1 ++ s.2.2) := by
            rw [sumQty_append]
            linarith
          rw [if_pos hle,
            removeLargestGo_total fuel (r - s.2.1.qty) (t - s.2.1.qty) (s.1 ++ s.2.2) hlen2
              hposrest (by linarith) hsum2]
          ring
        · rw [if_neg hle]

theorem removeLargestGo_pos :
    ∀ (fuel : Nat) (r t : ℚ) (l : List OrderInfo), (∀ o ∈ l, 0 < o.qty) →
      ∀ x ∈ (removeFromLargestGo fuel r t l).1, 0 < x.qty
  | 0, r, t, l, hpos => hpos
  | fuel + 1, r, t, l, hpos => by
    by_cases hz : r ≤ 0
    · unfold removeFromLargestGo
      rw [if_pos hz]
      exact hpos
    · match l, hpos with
      | [], hpos =>
        unfold removeFromLargestGo
        rw [if_neg hz]
        exact hpos
      | o :: rest, hpos =>
        have hdec := firstMaxSplitCons_decomp rest o
        set s := firstMaxSplitCons o rest with hs
        rw [removeLargestGo_step fuel hz]
        simp only [← hs]
        have hmempre : ∀ x ∈ s.1 ++ s.2.2, 0 < x.qty := by
          intro x hx
          refine hpos x ?_
          rw [hdec]
          rcases List.mem_append.mp hx with hp | hp
          · exact List.mem_append.mpr (Or.inl hp)
          · exact List.mem_append.mpr (Or.inr (by simp [hp]))
        by_cases hle : s.2.1.qty ≤ r
        · rw [if_pos hle]
          exact removeLargestGo_pos fuel _ _ _ hmempre
        · rw [if_neg hle]
          intro x hx
          rcases List.mem_append.mp hx with hp | hp
          · exact hmempre x (List.mem_append.mpr (Or.inl hp))
          · rcases List.mem_cons.mp hp with rfl | hp2
            · have h1 : r < s.2.1.qty := lt_of_not_le hle
              have h2 : 0 < r := lt_of_not_le hz
              simp only
              linarith
            · exact hmempre x (List.mem_append.mpr (Or.inr hp2))

/-! Preservation of the two queue invariants by each operation. -/

theorem addOrder_cacheInv {q : EnhancedOrderQueue} (h : cacheInv q) (now : Int) (qty : ℚ) :
    cacheInv (addOrder now qty q) := by
  unfold cacheInv addOrder at *
  rw [sumQty_append, sumQty_cons, sumQty_nil, h]
  ring

theorem removeQty_cacheInv {q : EnhancedOrderQueue} (h : cacheInv q) (d : ℚ) :
    cacheInv (removeQty d q) := by
  unfold removeQty
  split
  · exact h
  · split
    · next l removed hm =>
      obtain ⟨hrem, pre, m, post, hsplit, hmq, _, hl⟩ := tryExactMatch_eq_some hm
      unfold cacheInv at *
      simp only
      rw [h, hl, hsplit, sumQty_append, sumQty_cons, sumQty_append, hrem, hmq]
      ring
    · split
      · unfold cacheInv at *
        simp only
        have hd := removeLargestGo_diff q.orders.length d q.totalQty q.orders
        unfold removeFromLargestOrders
        rw [h] at hd ⊢
        linarith
      · unfold cacheInv at *
        simp only
        have hd := removeFIFO_diff q.orders d q.totalQty
        rw [h] at hd ⊢
        linarith

theorem optimizeQueue_cacheInv (q : EnhancedOrderQueue) :
    cacheInv (optimizeQueue q) := by
  unfold cacheInv optimizeQueue sumQty
  simp only
  exact (((List.perm_insertionSort _ _).map OrderInfo.qty).sum_eq).symm

theorem clearQueue_cacheInv (q : EnhancedOrderQueue) : cacheInv (clearQueue q) := by
  unfold cacheInv clearQueue sumQty
  simp

theorem addOrder_posInv {q : EnhancedOrderQueue} (h : posInv q) (now : Int) {qty : ℚ}
    (hq : 0 < qty) : posInv (addOrder now qty q) := by
  unfold posInv addOrder at *
  intro o ho
  rcases List.mem_append.mp ho with hl | hr
  · exact h o hl
  · rcases List.mem_singleton.mp hr with rfl
    exact hq

theorem removeQty_posInv {q : EnhancedOrderQueue} (h : posInv q) (d : ℚ) :
    posInv (removeQty d q) := by
  unfold removeQty
  split
  · exact h
  · split
    · next l removed hm =>
      obtain ⟨_, pre, m, post, hsplit, _, _, hl⟩ := tryExactMatch_eq_some hm
      unfold posInv at *
      simp only
      intro o ho
      rw [hl] at ho
      refine h o ?_
      rw [hsplit]
      rcases List.mem_append.mp ho with hp | hp
      · exact List.mem_append.mpr (Or.inl hp)
      · exact List.mem_append.mpr (Or.inr (by simp [hp]))
    · split
      · unfold posInv at *
        exact removeLargestGo_pos q.orders.length d q.totalQty q.orders h
      · unfold posInv at *
        exact removeFIFO_pos q.orders d q.totalQty h

theorem optimizeQueue_posInv (q : EnhancedOrderQueue) : posInv (optimizeQueue q) := by
  unfold posInv optimizeQueue
  simp only
  intro o ho
  have := (List.perm_insertionSort (fun a b : OrderInfo => a.timestamp ≤ b.timestamp) _).subset ho
  have := List.of_mem_filter this
  exact of_decide_eq_true this

theorem clearQueue_posInv (q : EnhancedOrderQueue) : posInv (clearQueue q) := by
  unfold posInv clearQueue
  simp

theorem applyOp_cacheInv {q : EnhancedOrderQueue} (h : cacheInv q) (op : QOp) :
    cacheInv (applyOp op q) := by
  cases op with
  | add now qty => exact addOrder_cacheInv h now qty
  | remove d => exact removeQty_cacheInv h d
  | optimize => exact optimizeQueue_cacheInv q
  | clear => exact clearQueue_cacheInv q

theorem applyOp_posInv {q : EnhancedOrderQueue} (h : posInv q) {op : QOp}
    (hop : QOp.addPos op) : posInv (applyOp op q) := by
  cases op with
  | add now qty => exact addOrder_posInv h now hop
  | remove d => exact removeQty_posInv h d
  | optimize => exact optimizeQueue_posInv q
  | clear => exact clearQueue_posInv q

theorem applyOps_cacheInv {q : EnhancedOrderQueue} (h : cacheInv q) (ops : List QOp) :
    cacheInv (applyOps ops q) := by
  induction ops generalizing q with
  | nil => exact h
  | cons op rest ih => exact ih (applyOp_cacheInv h op)

theorem applyOps_posInv {q : EnhancedOrderQueue} (h : posInv q) {ops : List QOp}
    (hops : ∀ op ∈ ops, QOp.addPos op) : posInv (applyOps ops q) := by
  induction ops generalizing q with
  | nil => exact h
  | cons op rest ih =>
    exact ih (applyOp_posInv h (hops op (by simp))) (fun x hx => hops x (by simp [hx]))

/-- Exact accounting of RemoveQty: on a well-formed queue, removing an amount
strictly between zero and the cached total lowers the cached total by exactly
that amount, whichever of the three strategies runs. -/
theorem removeQty_total {q : EnhancedOrderQueue} (hc : cacheInv q) (hp : posInv q)
    {d : ℚ} (h0 : 0 < d) (h1 : d < q.totalQty) :
    (removeQty d q).totalQty = q.totalQty - d := by
  unfold removeQty
  rw [if_neg (not_le.mpr h0)]
  split
  · next l removed hm =>
    obtain ⟨hrem, _⟩ := tryExactMatch_eq_some hm
    simp only
    rw [hrem]
  · split
    · simp only
      unfold removeFromLargestOrders
      exact removeLargestGo_total q.orders.length d q.totalQty q.orders le_rfl hp
        (le_of_lt h0) (by rw [hc] at h1; exact le_of_lt h1)
    · simp only
      exact removeFIFO_total q.orders d q.totalQty hp
        (le_of_lt h0) (by rw [hc] at h1; exact le_of_lt h1)

theorem removeFIFO_fst :
    ∀ (l : List OrderInfo) (d t : ℚ), (removeFIFO d t l).1 = fifoSpec d l
  | [], d, t => rfl
  | o :: rest, d, t => by
    simp only [removeFIFO, fifoSpec]
    by_cases h0 : d ≤ 0
    · rw [if_pos h0, if_pos h0]
    · rw [if_neg h0, if_neg h0]
      by_cases h1 : o.qty ≤ d
      · rw [if_pos h1, if_pos h1]
        exact removeFIFO_fst rest (d - o.qty) (t - o.qty)
      · rw [if_neg h1, if_neg h1]

theorem removeLargestGo_fst :
    ∀ (fuel : Nat) (d t : ℚ) (l : List OrderInfo),
      (removeFromLargestGo fuel d t l).1 = largestSpecGo fuel d l
  | 0, d, t, l => rfl
  | fuel + 1, d, t, l => by
    by_cases h0 : d ≤ 0
    · conv_lhs => rw [removeFromLargestGo]
      simp only [largestSpecGo]
      rw [if_pos h0, if_pos h0]
    · match l with
      | [] =>
        conv_lhs => rw [removeFromLargestGo]
        simp only [largestSpecGo]
        rw [if_neg h0, if_neg h0]
        rfl
      | o :: rest =>
        set s := firstMaxSplitCons o rest with hs
        rw [removeLargestGo_step fuel h0]
        simp only [largestSpecGo, ← hs]
        rw [if_neg h0]
        by_cases h1 : s.2.1.qty ≤ d
        · rw [if_pos h1, if_neg (not_lt.mpr h1)]
          exact removeLargestGo_fst fuel _ _ _
        · rw [if_neg h1, if_pos (lt_of_not_le h1)]

/-- C3: with diff > 0 on a non-empty queue with no exact match, RemoveQty
consumes from the first-occurrence largest order, repeating on the new
largest and marking a merely reduced order partial, when diff exceeds half
the largest qty; otherwise it consumes whole orders from the front and the
first larger order absorbs the remainder and is marked partial.  The Go
loops agree with the spec-worded strategies on the resulting order list. -/
theorem claim_C3_removal_strategies (q : EnhancedOrderQueue) {d : ℚ}
    (hne : q.orders ≠ []) (h0 : 0 < d) (hnoex : ∀ o ∈ q.orders, o.qty ≠ d) :
    (removeQty d q).orders =
      if getLargestOrderQty q.orders / 2 < d then largestSpec d q.orders
      else fifoSpec d q.orders := by
  unfold removeQty
  rw [if_neg (not_le.mpr h0)]
  split
  · next l removed hm =>
    rw [tryExactMatch_eq_none.mpr hnoex] at hm
    exact absurd hm (by simp)
  · split
    · show (removeFromLargestOrders d q.totalQty q.orders).1 = largestSpec d q.orders
      unfold removeFromLargestOrders largestSpec
      exact removeLargestGo_fst q.orders.length d q.totalQty q.orders
    · show (removeFIFO d q.totalQty q.orders).1 = fifoSpec d q.orders
      exact removeFIFO_fst q.orders d q.totalQty

theorem claim_C3_removal_strategies_witness :
    sampleQueue4.orders ≠ [] ∧ (0 : ℚ) < 8 ∧
    (∀ o ∈ sampleQueue4.orders, o.qty ≠ 8) ∧
    (removeQty 8 sampleQueue4).orders =
      (if getLargestOrderQty sampleQueue4.orders / 2 < 8 then
        largestSpec 8 sampleQueue4.orders
      else fifoSpec 8 sampleQueue4.orders) :=
  ⟨by with_unfolding_all decide, by norm_num, by with_unfolding_all decide,
    claim_C3_removal_strategies _ (by with_unfolding_all decide) (by norm_num)
      (by with_unfolding_all decide)⟩

/-- C4: with diff > 0 and some order whose qty equals diff exactly, RemoveQty
removes entirely the newest such order — the queue splits as pre ++ m :: post
with m.qty = diff and no match in post (the back-scan hits m first) — and
nothing else changes: the result is pre ++ post, the cached total drops by
diff, and the id counter is untouched. -/
theorem claim_C4_exact_match_cancellation (q : EnhancedOrderQueue) {d : ℚ} (h0 : 0 < d)
    (hex : ∃ o ∈ q.orders, o.qty = d) :
    ∃ pre m post, q.orders = pre ++ m :: post ∧ m.qty = d ∧ (∀ o ∈ post, o.qty ≠ d) ∧
      (removeQty d q).orders = pre ++ post ∧
      (removeQty d q).totalQty = q.totalQty - d ∧
      (removeQty d q).nextOrderID = q.nextOrderID := by
  match hm : tryExactMatch d q.orders with
  | none =>
    obtain ⟨o, ho, hoq⟩ := hex
    exact absurd hoq (tryExactMatch_eq_none.mp hm o ho)
  | some (l, removed) =>
    obtain ⟨hrem, pre, m, post, hsplit, hmq, hpost, hl⟩ := tryExactMatch_eq_some hm
    have hstep : removeQty d q = { q with orders := l, totalQty := q.totalQty - removed } := by
      unfold removeQty
      rw [if_neg (not_le.mpr h0), hm]
    refine ⟨pre, m, post, hsplit, hmq, hpost, ?_, ?_, ?_⟩
    · rw [hstep]
      exact hl
    · rw [hstep, hrem]
    · rw [hstep]

theorem claim_C4_exact_match_cancellation_witness :
    (0 : ℚ) < 3 ∧ (∃ o ∈ sampleQueue3.orders, o.qty = 3) ∧
    (∃ pre m post, sampleQueue3.orders = pre ++ m :: post ∧
      m.qty = 3 ∧ (∀ o ∈ post, o.qty ≠ 3) ∧
      (removeQty 3 sampleQueue3).orders = pre ++ post ∧
      (removeQty 3 sampleQueue3).totalQty = sampleQueue3.totalQty - 3 ∧
      (removeQty 3 sampleQueue3).nextOrderID = sampleQueue3.nextOrderID) :=
  ⟨by norm_num,
    ⟨{ id := 2, qty := 3, timestamp := 1, isPartial := false }, by simp [sampleQueue3], rfl⟩,
    claim_C4_exact_match_cancellation _ (by norm_num)
      ⟨{ id := 2, qty := 3, timestamp := 1, isPartial := false }, by simp [sampleQueue3], rfl⟩⟩

/-- C1: for every OrderQueue and every sequence of its operations (add,
remove_qty, optimize, clear), the cached total_qty equals the sum of the qty
fields of the orders currently in the queue at every operation boundary:
the cache invariant holds after any prefix of operations applied to a queue
that satisfies it (in particular to the freshly constructed queue). -/
theorem claim_C1_total_cache_invariant (ops : List QOp) (q : EnhancedOrderQueue)
    (h : cacheInv q) : cacheInv (applyOps ops q) :=
  applyOps_cacheInv h ops

theorem claim_C1_total_cache_invariant_witness :
    cacheInv newEnhancedOrderQueue ∧
      cacheInv (applyOps
        [QOp.add 0 5, QOp.add 1 3, QOp.remove 6, QOp.optimize, QOp.remove 1, QOp.clear]
        newEnhancedOrderQueue) :=
  ⟨by with_unfolding_all decide,
    claim_C1_total_cache_invariant _ _ (by with_unfolding_all decide)⟩

/-- C6: for every queue whose orders were all added with qty > 0, no
operation (add, remove_qty, optimize, clear) leaves an order with qty ≤ 0 in
the queue at an operation boundary: positivity of all member orders is
preserved by every operation sequence whose add operations carry positive
quantities. -/
theorem claim_C6_no_nonpositive_orders (ops : List QOp) (q : EnhancedOrderQueue)
    (hq : posInv q) (hops : ∀ op ∈ ops, QOp.addPos op) : posInv (applyOps ops q) :=
  applyOps_posInv hq hops

theorem claim_C6_no_nonpositive_orders_witness :
    posInv newEnhancedOrderQueue ∧
      (∀ op ∈ [QOp.add 0 4, QOp.add 1 10, QOp.add 2 3, QOp.remove 2, QOp.remove 8,
        QOp.optimize], QOp.addPos op) ∧
      posInv (applyOps
        [QOp.add 0 4, QOp.add 1 10, QOp.add 2 3, QOp.remove 2, QOp.remove 8, QOp.optimize]
        newEnhancedOrderQueue) :=
  ⟨by with_unfolding_all decide, by with_unfolding_all decide,
    claim_C6_no_nonpositive_orders _ _ (by with_unfolding_all decide)
      (by with_unfolding_all decide)⟩

/-- C10: calling RemoveQty with a quantity ≤ 0 is a complete no-op: the Go
function returns before touching any state, so the queue value (orders, all
qty and is_partial fields, and the cached total) is unchanged. -/
theorem claim_C10_removeQty_nonpositive_noop (q : EnhancedOrderQueue) {d : ℚ} (h : d ≤ 0) :
    removeQty d q = q := by
  unfold removeQty
  rw [if_pos h]

/-! Association-list lookup lemmas for the side-map updates. -/

theorem lookup_map_key {β : Type} (f : β → β) :
    ∀ (side : List (String × β)) (price : String) (q : β),
      lookupKey price side = some q →
      lookupKey price (mapAtKey f price side) = some (f q)
  | [], price, q, h => by simp [lookupKey] at h
  | (k, v) :: rest, price, q, h => by
    by_cases hk : k = price
    · subst hk
      simp [lookupKey] at h
      have hm : mapAtKey f k ((k, v) :: rest) = (k, f v) :: mapAtKey f k rest := by
        simp [mapAtKey]
      rw [hm]
      simp [lookupKey, h]
    · simp [lookupKey, hk] at h
      have hm : mapAtKey f price ((k, v) :: rest) = (k, v) :: mapAtKey f price rest := by
        simp [mapAtKey, hk]
      rw [hm]
      simp only [lookupKey]
      rw [if_neg hk]
      exact lookup_map_key f rest price q h

theorem lookup_append_single {β : Type} :
    ∀ (side : List (String × β)) (price : String) (v : β),
      lookupKey price side = none →
      lookupKey price (side ++ [(price, v)]) = some v
  | [], price, v, _ => by simp [lookupKey]
  | (k, w) :: rest, price, v, h => by
    by_cases hk : k = price
    · simp only [lookupKey, if_pos hk] at h
      exact absurd h (by simp)
    · simp only [lookupKey, if_neg hk] at h
      simp only [List.cons_append, lookupKey, if_neg hk]
      exact lookup_append_single rest price v h

/-- Accounting through updateEnhancedOne: with positive new aggregate and a
well-formed stored queue, the result's cached total is the new aggregate. -/
theorem updateEnhancedOne_total (now : Int) {newQty : ℚ} (hq : 0 < newQty)
    {queue : EnhancedOrderQueue} (hc : cacheInv queue) (hp : posInv queue) :
    (updateEnhancedOne now newQty queue).totalQty = newQty := by
  unfold updateEnhancedOne
  by_cases h1 : queue.totalQty < newQty
  · rw [if_pos h1]
    show queue.totalQty + (newQty - queue.totalQty) = newQty
    ring
  · rw [if_neg h1]
    by_cases h2 : newQty < queue.totalQty
    · rw [if_pos h2]
      rw [removeQty_total hc hp (by linarith) (by linarith)]
      ring
    · rw [if_neg h2]
      linarith

/-- C2 as amended: after updateEnhancedQueue processes a (price, qty) pair
whose qty parsed to a positive value, the queue at that price exists and its
cached total equals exactly that qty — new level, grow, shrink and unchanged
cases alike — provided a pre-existing queue at that price satisfies the
maintained queue invariants (cached total = Σ qty, all order qtys > 0). -/
theorem claim_C2_total_tracks_delta (now : Int) (side : List (String × EnhancedOrderQueue))
    (price : String) {newQty : ℚ} (hq : 0 < newQty)
    (hinv : ∀ q, lookupKey price side = some q → cacheInv q ∧ posInv q) :
    ∃ q', lookupKey price (updateEnhancedQueue now side price newQty) = some q' ∧
      q'.totalQty = newQty := by
  unfold updateEnhancedQueue
  match hlk : lookupKey price side with
  | some q =>
    split
    · obtain ⟨hc, hp⟩ := hinv q hlk
      exact ⟨updateEnhancedOne now newQty q, lookup_map_key _ side price q hlk,
        updateEnhancedOne_total now hq hc hp⟩
    · next hcond => simp at hcond
  | none =>
    split
    · next hcond => simp at hcond
    · refine ⟨addOrder now newQty newEnhancedOrderQueue,
        lookup_append_single side price _ hlk, ?_⟩
      show (0 : ℚ) + newQty = newQty
      ring

theorem claim_C2_total_tracks_delta_witness :
    (0 : ℚ) < 8 ∧
    (∀ q, lookupKey "100.0" [("100.0", sampleQueue5)] = some q → cacheInv q ∧ posInv q) ∧
    (∃ q', lookupKey "100.0" (updateEnhancedQueue 1 [("100.0", sampleQueue5)] "100.0" 8) =
      some q' ∧ q'.totalQty = 8) :=
  ⟨by norm_num,
    by
      intro q hq
      have h5 : lookupKey "100.0" [("100.0", sampleQueue5)] = some sampleQueue5 := by
        with_unfolding_all decide
      rw [h5, Option.some.injEq] at hq
      subst hq
      exact ⟨by with_unfolding_all decide, by with_unfolding_all decide⟩,
    claim_C2_total_tracks_delta 1 [("100.0", sampleQueue5)] "100.0" (by norm_num)
      (by
        intro q hq
        have h5 : lookupKey "100.0" [("100.0", sampleQueue5)] = some sampleQueue5 := by
          with_unfolding_all decide
        rw [h5, Option.some.injEq] at hq
        subst hq
        exact ⟨by with_unfolding_all decide, by with_unfolding_all decide⟩)⟩

theorem claim_C2_counterexample :
    ((-1 : ℚ) ≠ 0) ∧
    ¬ (∃ q', lookupKey "100.0" (updateEnhancedQueue 1 [("100.0", sampleQueue5)] "100.0" (-1)) =
      some q' ∧ q'.totalQty = -1) := by
  constructor
  · norm_num
  · intro hex
    obtain ⟨q', hlk, htot⟩ := hex
    have hval : lookupKey "100.0" (updateEnhancedQueue 1 [("100.0", sampleQueue5)] "100.0" (-1)) =
        some { orders := [], totalQty := 0, nextOrderID := 2 } := by
      with_unfolding_all decide
    rw [hval, Option.some.injEq] at hlk
    rw [← hlk] at htot
    norm_num at htot

/-! Pruning lemmas and claim C5. -/

theorem pruneBids_all (parse : String → Option ℚ) (bids : List (String × List ℚ))
    {s0 : String} {b0 : ℚ} (hb0 : parse s0 = some b0) :
    ((pruneBids parse bids s0).all
      (fun pq => match parse pq.1 with
        | some pv => decide (pv ≤ b0)
        | none => true)) = true := by
  rw [List.all_eq_true]
  intro pq hpq
  have hk := List.of_mem_filter hpq
  rw [Bool.not_eq_true'] at hk
  unfold pruneCondBid at hk
  match hp : parse pq.1 with
  | none => simp [hp]
  | some pv =>
    rw [hp, hb0] at hk
    simp at hk
    simpa [hp] using hk

theorem pruneAsks_all (parse : String → Option ℚ) (asks : List (String × List ℚ))
    {s0 : String} {a0 : ℚ} (ha0 : parse s0 = some a0) :
    ((pruneAsks parse asks s0).all
      (fun pq => match parse pq.1 with
        | some pv => decide (a0 ≤ pv)
        | none => true)) = true := by
  rw [List.all_eq_true]
  intro pq hpq
  have hk := List.of_mem_filter hpq
  rw [Bool.not_eq_true'] at hk
  unfold pruneCondAsk at hk
  match hp : parse pq.1 with
  | none => simp [hp]
  | some pv =>
    rw [hp, ha0] at hk
    simp at hk
    simpa [hp] using hk

/-- C5: after applyDelta completes on an update carrying at least one bid
entry (whose first price string parses), no bid level left on the book has a
parseable price strictly greater than the update's first bid price; and
symmetrically no ask level has a parseable price strictly below the update's
first ask price.  The Bool `all` phrasing quantifies over the levels left on
each side. -/
theorem claim_C5_top_of_book_pruning (parse : String → Option ℚ) (now : Int)
    (ob : BookSides) (u : WSUpdate) :
    (∀ fb s0 b0, u.B.head? = some fb → fb.head? = some s0 → parse s0 = some b0 →
      ((applyDelta parse now ob u).bids.all
        (fun pq => match parse pq.1 with
          | some pv => decide (pv ≤ b0)
          | none => true)) = true) ∧
    (∀ fa s0 a0, u.A.head? = some fa → fa.head? = some s0 → parse s0 = some a0 →
      ((applyDelta parse now ob u).asks.all
        (fun pq => match parse pq.1 with
          | some pv => decide (a0 ≤ pv)
          | none => true)) = true) := by
  obtain ⟨B, A⟩ := u
  constructor
  · intro fb s0 b0 hfb hs0 hb0
    match B, hfb with
    | fb0 :: tlB, hfb =>
      have hfb2 : fb0 = fb := by simpa using hfb
      subst hfb2
      match fb0, hs0 with
      | s00 :: tlF, hs0 =>
        have hs2 : s00 = s0 := by simpa using hs0
        subst hs2
        have hbids : (applyDelta parse now ob ⟨(s00 :: tlF) :: tlB, A⟩).bids =
            pruneBids parse
              (((s00 :: tlF) :: tlB).foldl (applySideEntry parse now)
                (ob.bids, ob.enhancedBids)).1 s00 := rfl
        rw [hbids]
        exact pruneBids_all parse _ hb0
  · intro fa s0 a0 hfa hs0 ha0
    match A, hfa with
    | fa0 :: tlA, hfa =>
      have hfa2 : fa0 = fa := by simpa using hfa
      subst hfa2
      match fa0, hs0 with
      | s00 :: tlF, hs0 =>
        have hs2 : s00 = s0 := by simpa using hs0
        subst hs2
        have hasks : (applyDelta parse now ob ⟨B, (s00 :: tlF) :: tlA⟩).asks =
            pruneAsks parse
              (((s00 :: tlF) :: tlA).foldl (applySideEntry parse now)
                (ob.asks, ob.enhancedAsks)).1 s00 := rfl
        rw [hasks]
        exact pruneAsks_all parse _ ha0

theorem claim_C5_top_of_book_pruning_witness :
    ((applyDelta parseEx 0 obEx uEx).bids.all
      (fun pq => match parseEx pq.1 with
        | some pv => decide (pv ≤ (99 : ℚ))
        | none => true)) = true ∧
    ((applyDelta parseEx 0 obEx uEx).asks.all
      (fun pq => match parseEx pq.1 with
        | some pv => decide ((101 : ℚ) ≤ pv)
        | none => true)) = true :=
  ⟨(claim_C5_top_of_book_pruning parseEx 0 obEx uEx).1 ["99", "1"] "99" 99 rfl rfl
      (by with_unfolding_all decide),
    (claim_C5_top_of_book_pruning parseEx 0 obEx uEx).2 ["101", "1"] "101" 101 rfl rfl
      (by with_unfolding_all decide)⟩

/-! Structural lemmas about Fit, for claims C7, C8 and C9. -/

theorem normalize_length (points : List ℚ) : (normalize points).length = points.length := by
  cases points with
  | nil => rfl
  | cons p rest =>
    simp only [normalize]
    split
    · rfl
    · simp

theorem normalize_ne_nil {points : List ℚ} (h : points ≠ []) : normalize points ≠ [] := by
  intro hn
  have := normalize_length points
  rw [hn] at this
  exact h (List.eq_nil_of_length_eq_zero this.symm)

theorem initializeCentroids_length (k : Nat) {points : List ℚ} (old : List ℚ)
    (h : points ≠ []) : (initializeCentroids k points old).length = k := by
  cases points with
  | nil => exact absurd rfl h
  | cons p rest => simp [initializeCentroids]

theorem updateCentroids_length (cs : List ℚ) (cnts : List Nat) (sums : List ℚ) :
    (updateCentroids cs cnts sums).length = cs.length := by
  simp [updateCentroids]

theorem fitIterations_length (r42 : Nat → Nat) (points : List ℚ) (k bs : Nat) :
    ∀ (n : Nat) (cs : List ℚ) (pos : Nat),
      (fitIterations r42 points k bs n (cs, pos)).1.length = cs.length
  | 0, cs, pos => rfl
  | n + 1, cs, pos => by
    simp only [fitIterations]
    rw [fitIterations_length r42 points k bs n _ _]
    exact updateCentroids_length _ _ _

theorem fitCentroids_length (r : Nat → Nat → Nat) (km : MiniBatchKMeans)
    {rawPoints : List ℚ} (h : rawPoints ≠ []) :
    (fitCentroids r km rawPoints).length = km.numClusters := by
  simp only [fitCentroids]
  have hpts : normalize rawPoints ≠ [] := normalize_ne_nil h
  split
  · rw [fitIterations_length]
    exact initializeCentroids_length km.numClusters km.centroids hpts
  · next hcond =>
    rw [fitIterations_length]
    omega

theorem closestAux_lt (p : ℚ) :
    ∀ (rest : List ℚ) (i bi : Nat) (bd : ℚ) (n : Nat), bi < n → i + rest.length ≤ n →
      closestAux p rest i bi bd < n
  | [], i, bi, bd, n, hbi, _ => hbi
  | c :: rest, i, bi, bd, n, hbi, hlen => by
    simp only [closestAux]
    simp only [List.length_cons] at hlen
    split
    · exact closestAux_lt p rest (i + 1) i _ n (by omega) (by omega)
    · exact closestAux_lt p rest (i + 1) bi bd n hbi (by omega)

theorem closestCentroid_lt {cs : List ℚ} (p : ℚ) (h : cs ≠ []) :
    closestCentroid cs p < cs.length := by
  cases cs with
  | nil => exact absurd rfl h
  | cons c rest =>
    simp only [closestCentroid, List.length_cons]
    exact closestAux_lt p rest 1 0 _ (rest.length + 1) (by omega) (by omega)

theorem firstPos_lt (a : Nat) :
    ∀ {l : List Nat} {j : Nat}, firstPos a l = some j → j < l.length
  | [], j, h => by simp [firstPos] at h
  | b :: l, j, h => by
    simp only [firstPos] at h
    split at h
    · simp only [Option.some.injEq] at h
      simp [← h]
    · match hf : firstPos a l with
      | none => rw [hf] at h; simp at h
      | some j0 =>
        rw [hf] at h
        simp at h
        have := firstPos_lt a hf
        simp only [List.length_cons]
        omega

theorem fitSortedIdx_length (k : Nat) (cs : List ℚ) : (fitSortedIdx k cs).length = k := by
  unfold fitSortedIdx
  rw [(List.perm_insertionSort _ _).length_eq, List.length_range]

theorem fitPoints_fst_length (r : Nat → Nat → Nat) (km : MiniBatchKMeans)
    (rawPoints : List ℚ) : (fitPoints r km rawPoints).1.length = rawPoints.length := by
  cases rawPoints with
  | nil => rfl
  | cons p rest =>
    simp only [fitPoints, List.length_map]
    exact normalize_length _

/-- C7: on a non-empty input and a clusterer with at least one cluster, Fit
returns one label per collected point, every label is in [0, num_clusters),
and the labels are size-rank-stable: reading the final centroids through the
stabilization permutation gives a non-decreasing sequence, so the centroid
associated with label 0 is ≤ that of label 1, and so on. -/
theorem claim_C7_fit_labels (r : Nat → Nat → Nat) (km : MiniBatchKMeans)
    (entries : List (String × List ℚ)) (hk : 0 < km.numClusters)
    (hne : extractPoints entries ≠ []) :
    (fitBook r km entries).1.length = (extractPoints entries).length ∧
    (∀ l ∈ (fitBook r km entries).1, l < km.numClusters) ∧
    List.Sorted (fun a b : ℚ => a ≤ b)
      ((fitSortedIdx km.numClusters (fitCentroids r km (extractPoints entries))).map
        (fun i => (fitCentroids r km (extractPoints entries)).getD i 0)) := by
  refine ⟨fitPoints_fst_length r km _, ?_, ?_⟩
  · intro l hl
    unfold fitBook at hl
    match hraw : extractPoints entries with
    | [] => exact absurd hraw hne
    | p0 :: raws =>
      rw [hraw] at hl
      simp only [fitPoints] at hl
      rw [List.mem_map] at hl
      obtain ⟨l0, hl0, hrem⟩ := hl
      rw [List.mem_map] at hl0
      obtain ⟨pt, _, hpt⟩ := hl0
      have hcs1len : (fitCentroids r km (p0 :: raws)).length = km.numClusters := by
        exact fitCentroids_length r km (by simp)
      have hl0lt : l0 < km.numClusters := by
        rw [← hpt, ← hcs1len]
        refine closestCentroid_lt pt ?_
        intro hnil
        rw [hnil] at hcs1len
        simp at hcs1len
        omega
      rw [← hrem]
      match hf : firstPos l0 (fitSortedIdx km.numClusters (fitCentroids r km (p0 :: raws))) with
      | none => simpa using hl0lt
      | some j =>
        have := firstPos_lt l0 hf
        rw [fitSortedIdx_length] at this
        simpa using this
  · set cs := fitCentroids r km (extractPoints entries) with hcs
    haveI htotal : IsTotal Nat (fun i j => cs.getD i 0 ≤ cs.getD j 0) :=
      ⟨fun a b => le_total _ _⟩
    haveI htrans : IsTrans Nat (fun i j => cs.getD i 0 ≤ cs.getD j 0) :=
      ⟨fun a b c hab hbc => le_trans hab hbc⟩
    have hsorted := List.sorted_insertionSort
      (fun i j => cs.getD i 0 ≤ cs.getD j 0) (List.range km.numClusters)
    unfold fitSortedIdx
    exact List.Pairwise.map _ (fun a b hab => hab) hsorted

theorem claim_C7_fit_labels_witness :
    0 < (newMiniBatchKMeans 2 1 1).numClusters ∧
    extractPoints [("1", [1]), ("2", [100])] ≠ [] ∧
    ((fitBook rZeroStream (newMiniBatchKMeans 2 1 1) [("1", [1]), ("2", [100])]).1.length =
      (extractPoints [("1", [1]), ("2", [100])]).length ∧
    (∀ l ∈ (fitBook rZeroStream (newMiniBatchKMeans 2 1 1) [("1", [1]), ("2", [100])]).1,
      l < (newMiniBatchKMeans 2 1 1).numClusters) ∧
    List.Sorted (fun a b : ℚ => a ≤ b)
      ((fitSortedIdx (newMiniBatchKMeans 2 1 1).numClusters
        (fitCentroids rZeroStream (newMiniBatchKMeans 2 1 1)
          (extractPoints [("1", [1]), ("2", [100])]))).map
        (fun i => (fitCentroids rZeroStream (newMiniBatchKMeans 2 1 1)
          (extractPoints [("1", [1]), ("2", [100])])).getD i 0))) :=
  ⟨by decide, by with_unfolding_all decide,
    claim_C7_fit_labels rZeroStream (newMiniBatchKMeans 2 1 1) [("1", [1]), ("2", [100])]
      (by decide) (by with_unfolding_all decide)⟩

/-! Alignment lemmas for ClusterOrderBook (claim C8). -/

theorem posQtys_cons_pos {q : ℚ} (rest : List ℚ) (h : 0 < q) :
    posQtys (q :: rest) = q :: posQtys rest := by
  simp [posQtys, List.filter_cons, h]

theorem posQtys_cons_nonpos {q : ℚ} (rest : List ℚ) (h : ¬ 0 < q) :
    posQtys (q :: rest) = posQtys rest := by
  simp [posQtys, List.filter_cons, h]

theorem extractPoints_cons (p : String) (qs : List ℚ) (rest : List (String × List ℚ)) :
    extractPoints ((p, qs) :: rest) = posQtys qs ++ extractPoints rest := rfl

theorem takeLabels_eq :
    ∀ (qs : List ℚ) (labels : List Nat), (posQtys qs).length ≤ labels.length →
      takeLabels labels qs =
        ((posQtys qs).zip (labels.take (posQtys qs).length),
          labels.drop (posQtys qs).length)
  | [], labels, _ => by simp [takeLabels, posQtys]
  | q :: rest, labels, h => by
    by_cases hq : 0 < q
    · rw [posQtys_cons_pos rest hq] at h ⊢
      match labels, h with
      | l :: ls, h =>
        simp only [takeLabels, if_pos hq]
        rw [takeLabels_eq rest ls (by simpa using h)]
        simp [List.zip_cons_cons]
    · rw [posQtys_cons_nonpos rest hq] at h ⊢
      simp only [takeLabels, if_neg hq]
      exact takeLabels_eq rest labels h

theorem assignOut_eq_alignedSpec :
    ∀ (entries : List (String × List ℚ)) (labels : List Nat),
      (extractPoints entries).length ≤ labels.length →
      assignOut labels entries = alignedSpec labels entries
  | [], labels, _ => rfl
  | (p, qs) :: rest, labels, h => by
    rw [extractPoints_cons, List.length_append] at h
    simp only [assignOut, alignedSpec]
    rw [takeLabels_eq qs labels (by omega)]
    have hrec := assignOut_eq_alignedSpec rest (labels.drop (posQtys qs).length)
      (by rw [List.length_drop]; omega)
    rw [hrec]

/-- C8 as amended: when the two traversals of the side map (the one in Fit's
point extraction and the one in the output assembly) enumerate the prices in
the same order, ClusterOrderBook's output is exactly the aligned mapping:
each price's positive qtys in queue order, each paired with the label the
fit computed for that same occurrence. -/
theorem claim_C8_cluster_output_aligned (r : Nat → Nat → Nat)
    (gkm : Option MiniBatchKMeans) (numClusters : Nat)
    (entries : List (String × List ℚ)) :
    clusterOrderBook r gkm numClusters entries entries =
      alignedSpec (fitPoints r (resolveKMeans gkm numClusters) (extractPoints entries)).1
        entries := by
  unfold clusterOrderBook
  exact assignOut_eq_alignedSpec entries _ (le_of_eq (fitPoints_fst_length _ _ _).symm)

set_option maxHeartbeats 1000000 in
/-- One mini-batch iteration of the C8 book is the identity on the
initialized centroids [0, 1]: the all-zeros stream always samples the first
normalized point 0, whose nearest centroid 0 has mean 0 already. -/
theorem fitIter_fixed :
    ∀ (n pos : Nat),
      fitIterations (rZeroStream 42) [0, 1] 2 1024 n ([0, 1], pos) = ([0, 1], pos + 2 * n)
  | 0, pos => by simp [fitIterations]
  | n + 1, pos => by
    have h1 : fitIterations (rZeroStream 42) [0, 1] 2 1024 (n + 1) ([0, 1], pos) =
        fitIterations (rZeroStream 42) [0, 1] 2 1024 n ([0, 1], pos + 2) := by
      simp only [fitIterations]
      congr 1
      rw [Prod.mk.injEq]
      constructor
      · simp only [rZeroStream]
        with_unfolding_all decide
      · norm_num
    rw [h1, fitIter_fixed n (pos + 2)]
    rw [Prod.mk.injEq]
    exact ⟨rfl, by omega⟩

theorem claim_C8_counterexample :
    ceOut.Perm ceFit ∧
    lookupKey "2" (clusterOrderBook rZeroStream none 2 ceFit ceOut) ≠
      lookupKey "2"
        (alignedSpec (fitPoints rZeroStream (resolveKMeans none 2) (extractPoints ceFit)).1
          ceFit) := by
  constructor
  · with_unfolding_all decide
  · have hext : extractPoints ceFit = [1, 100] := by with_unfolding_all decide
    have hnorm : normalize [1, 100] = [0, 1] := by with_unfolding_all decide
    have hinit : initializeCentroids 2 [0, 1] [] = [0, 1] := by with_unfolding_all decide
    have hkm : resolveKMeans none 2 = kmFresh2 := rfl
    have hcs1 : fitCentroids rZeroStream (resolveKMeans none 2) (extractPoints ceFit) =
        [0, 1] := by
      rw [hext]
      simp only [fitCentroids, hkm, kmFresh2]
      rw [if_pos (by simp)]
      rw [hnorm, hinit, fitIter_fixed 1024 0]
    have hlab : (fitPoints rZeroStream (resolveKMeans none 2) (extractPoints ceFit)).1 =
        [0, 1] := by
      rw [hext] at hcs1 ⊢
      simp only [fitPoints]
      rw [hcs1]
      with_unfolding_all decide
    rw [hlab]
    have hout : lookupKey "2" (clusterOrderBook rZeroStream none 2 ceFit ceOut) =
        some [((100 : ℚ), 0)] := by
      simp only [clusterOrderBook]
      rw [hlab]
      with_unfolding_all decide
    rw [hout]
    have hspec : lookupKey "2" (alignedSpec [0, 1] ceFit) = some [((100 : ℚ), 1)] := by
      with_unfolding_all decide
    rw [hspec]
    with_unfolding_all decide

/-- C9: Fit's pseudo-random source is created from the fixed constant 42 at
the start of each fit, so the cluster output is a function of the clusterer
state and the input alone: two ambient random environments that agree on the
seed-42 stream (whatever they do at other seeds) give identical fit results
on the same state and input; in particular rerunning fit on the same state
and input reproduces the same labels. -/
theorem claim_C9_fixed_seed_determinism (r1 r2 : Nat → Nat → Nat) (h42 : r1 42 = r2 42)
    (km : MiniBatchKMeans) (rawPoints : List ℚ) :
    fitPoints r1 km rawPoints = fitPoints r2 km rawPoints := by
  unfold fitPoints fitCentroids
  simp only [h42]

theorem claim_C9_fixed_seed_determinism_witness :
    rZeroStream 42 = rOtherSeeds 42 ∧
    fitPoints rZeroStream (newMiniBatchKMeans 1 1 1) [1] =
      fitPoints rOtherSeeds (newMiniBatchKMeans 1 1 1) [1] :=
  ⟨funext fun _ => rfl,
    claim_C9_fixed_seed_determinism rZeroStream rOtherSeeds (funext fun _ => rfl)
      (newMiniBatchKMeans 1 1 1) [1]⟩

theorem claim_C10_removeQty_nonpositive_noop_witness :
    ((-1 : ℚ) ≤ 0) ∧
      removeQty (-1)
        { orders := [{ id := 1, qty := 5, timestamp := 0, isPartial := false }],
          totalQty := 5, nextOrderID := 2 } =
        { orders := [{ id := 1, qty := 5, timestamp := 0, isPartial := false }],
          totalQty := 5, nextOrderID := 2 } :=
  ⟨by norm_num, claim_C10_removeQty_nonpositive_noop _ (by norm_num)⟩

end L3
